import Mathlib

/-!
Verification of the MCTS engine in `ggpa/mcts_bot.py` (classes `TreeNode`
and `MCTSAgent`).

Embedding conventions:
* Python's global `random` module is modelled by an explicit stream of
  natural numbers (`List Nat`); `random.choice(l)` takes the next stream
  element `n` and returns `l[n % len(l)]`, so every element of `l` is
  reachable by a suitable stream.
* The external `BattleState` collaborator is modelled from the spec (section 6)
  as a finite game tree `GState` exposing `get_actions`, `step`,
  `apply_action`, `ended` and `score`.
* The mutable `TreeNode` objects (with parent pointers) are modelled
  functionally: every operation is invoked at the root of the search tree and
  returns the updated tree.  `backpropagate`, which in Python walks the
  parent chain, is modelled by propagating the rollout score up the call
  stack of `step`/`select` (the call path coincides with the parent chain),
  each stack frame appending the score to its own node.
* Python `dict` (insertion ordered, key-unique) is modelled as an
  insertion-ordered association structure `ChildMap`; assignment `d[k] = v`
  replaces the first entry with key `k` in place, or appends a fresh entry.
-/

set_option maxHeartbeats 1000000

namespace MCTS

/-- The internal action type: `key` is the canonical de-duplication key
(`Action.key()` in the source); `tag` distinguishes structurally distinct
action instances that share a key. -/
structure Action where
  key : Nat
  tag : Nat
deriving DecidableEq

mutual

/-- Modelled from the spec: the external `GameState`/`BattleState` interface
(spec section 6), as a finite game tree.  `endedB` models `ended()`,
`scoreB` models `score()`, and `branches` lists the currently legal actions
together with the successor state each one advances to. -/
inductive GState where
  | mk (endedB : Bool) (scoreB : Rat) (branches : Branches)

inductive Branches where
  | nil
  | cons (a : Action) (s : GState) (rest : Branches)

end

mutual

/-- A computable size measure on game states, used as recursion fuel. -/
def GState.size : GState → Nat
  | .mk _ _ br => 1 + Branches.size br

def Branches.size : Branches → Nat
  | .nil => 0
  | .cons _ s rest => 1 + GState.size s + Branches.size rest

end

def GState.endedB : GState → Bool
  | .mk e _ _ => e

def GState.scoreB : GState → Rat
  | .mk _ sc _ => sc

def GState.branches : GState → Branches
  | .mk _ _ br => br

/-- The action labels of a branch list, in order. -/
def Branches.acts : Branches → List Action
  | .nil => []
  | .cons a _ rest => a :: rest.acts

/-- The successor of the first branch whose action equals `a`. -/
def Branches.findAct : Branches → Action → Option GState
  | .nil, _ => none
  | .cons b s rest, a => if b = a then some s else rest.findAct a

/-- The successor of the first branch whose action has canonical key `k`. -/
def Branches.findKey : Branches → Nat → Option GState
  | .nil, _ => none
  | .cons b s rest, k => if b.key = k then some s else rest.findKey k

/-- `state.get_actions()`: the currently legal actions. -/
def GState.get_actions (s : GState) : List Action :=
  s.branches.acts

/-- Modelled from the spec: `state.step(action)` advances the state in place
by the given action; here it moves to the successor of the first branch
carrying that action (unchanged if the action is not legal, a path no caller
exercises). -/
def stepState (s : GState) (a : Action) : GState :=
  match s.branches.findAct a with
  | some s' => s'
  | none => s

/-- Modelled from the spec: `state.apply_action(..)` is used by the
UCB-guided traversal and "may be identical to step" (spec section 6).  The
source passes the action's canonical key (the dict key of `children`), so
the model advances to the successor of the first branch whose action has
that key. -/
def applyAction (s : GState) (k : Nat) : GState :=
  match s.branches.findKey k with
  | some s' => s'
  | none => s

/-- One draw from the random stream. -/
def rngNext : List Nat → Nat × List Nat
  | [] => (0, [])
  | n :: rest => (n, rest)

/-- `random.choice(l)` for a list statically known non-empty at every call
site: index `n % len(l)` with `n` the next stream element.  (`dflt` is never
used when `l` is non-empty.) -/
def choose {α : Type} (l : List α) (dflt : α) (rng : List Nat) : α × List Nat :=
  match l with
  | [] => (dflt, (rngNext rng).2)
  | a :: as =>
      ((a :: as).get ⟨(rngNext rng).1 % (as.length + 1), Nat.mod_lt _ (Nat.succ_pos _)⟩,
       (rngNext rng).2)

mutual

/-- `TreeNode` from the source: tuning parameter, incoming action (`none`
only for the root), the insertion-ordered child dict keyed by
`action.key()`, the ordered outcome list `results`, and `visits`.  The
Python `parent` pointer is not stored: it is only read by `backpropagate`,
which the embedding realises by score propagation along the call path. -/
inductive TreeNode where
  | mk (param : Rat) (action : Option Action) (children : ChildMap)
       (results : List Rat) (visits : Nat)

inductive ChildMap where
  | nil
  | cons (k : Nat) (c : TreeNode) (rest : ChildMap)

end

mutual

/-- A computable size measure on tree nodes, used as recursion fuel. -/
def TreeNode.size : TreeNode → Nat
  | .mk _ _ cs _ _ => 1 + ChildMap.size cs

def ChildMap.size : ChildMap → Nat
  | .nil => 0
  | .cons _ c rest => 1 + TreeNode.size c + ChildMap.size rest

end

def TreeNode.param : TreeNode → Rat
  | .mk p _ _ _ _ => p

def TreeNode.action : TreeNode → Option Action
  | .mk _ a _ _ _ => a

def TreeNode.children : TreeNode → ChildMap
  | .mk _ _ cs _ _ => cs

def TreeNode.results : TreeNode → List Rat
  | .mk _ _ _ rs _ => rs

def TreeNode.visits : TreeNode → Nat
  | .mk _ _ _ _ v => v

/-- `TreeNode(param)`: the fresh root built per decision. -/
def freshNode (param : Rat) : TreeNode :=
  TreeNode.mk param none .nil [] 0

/-- `self.children.get(k)` on the insertion-ordered dict. -/
def lookupChild : ChildMap → Nat → Option TreeNode
  | .nil, _ => none
  | .cons k' c rest, k => if k' = k then some c else lookupChild rest k

/-- `k in self.children`. -/
def hasKey (cs : ChildMap) (k : Nat) : Bool :=
  (lookupChild cs k).isSome

/-- `self.children[k] = v` on a Python dict: replace the entry with key `k`
in place if present, else append. -/
def dictInsert : ChildMap → Nat → TreeNode → ChildMap
  | .nil, k, v => .cons k v .nil
  | .cons k' v' rest, k, v =>
      if k' = k then .cons k v rest else .cons k' v' (dictInsert rest k v)

/-- `len(self.children)`. -/
def ChildMap.length : ChildMap → Nat
  | .nil => 0
  | .cons _ _ rest => 1 + ChildMap.length rest

/-- The keys of the child dict in order. -/
def childKeys : ChildMap → List Nat
  | .nil => []
  | .cons k _ rest => k :: childKeys rest

/-- `self.children.values()` in insertion order. -/
def childValues : ChildMap → List TreeNode
  | .nil => []
  | .cons _ c rest => c :: childValues rest

/-- `self.children.items()` in insertion order. -/
def childItems : ChildMap → List (Nat × TreeNode)
  | .nil => []
  | .cons k c rest => (k, c) :: childItems rest

/-- One backpropagation touch at a single node:
`self.visits += 1; self.results.append(result)`. -/
def bump (t : TreeNode) (sc : Rat) : TreeNode :=
  match t with
  | .mk p a cs rs v => .mk p a cs (rs ++ [sc]) (v + 1)

/-- `TreeNode.backpropagate(result)` invoked at the root of the search tree
(where `self.parent is None`, so the recursion stops immediately).  Deeper
invocations are realised by the enclosing `step`/`select` frames each
applying `bump` to themselves as the score travels up the call path. -/
def TreeNode.backpropagate (t : TreeNode) (sc : Rat) : TreeNode :=
  bump t sc

/-- The loop of `TreeNode.rollout`: while the state is not ended, stop if no
actions, else advance by a uniformly random action.  `fuel` bounds the loop;
`rolloutScore` supplies `GState.size`, which is enough for the loop to reach
a terminal or dead-end state on every (finite) `GState`. -/
def rolloutGo : Nat → GState → List Nat → GState × List Nat
  | 0, s, rng => (s, rng)
  | fuel + 1, s, rng =>
      if s.endedB then (s, rng)
      else
        match s.get_actions with
        | [] => (s, rng)
        | a0 :: rest =>
            rolloutGo fuel (stepState s (choose (a0 :: rest) a0 rng).1)
              (choose (a0 :: rest) a0 rng).2

/-- `TreeNode.rollout(state)` up to the final state: play randomly to the
end and read `state.score()`. -/
def rolloutScore (s : GState) (rng : List Nat) : Rat × List Nat :=
  ((rolloutGo s.size s rng).1.scoreB, (rolloutGo s.size s rng).2)

/-- `TreeNode.rollout(state)` called at the root of the search tree: the
final `self.backpropagate(state.score())` touches only this node. -/
def TreeNode.rollout (t : TreeNode) (s : GState) (rng : List Nat) :
    TreeNode × List Nat :=
  (bump t (rolloutScore s rng).1, (rolloutScore s rng).2)

/-- `TreeNode.expand(state, unexplored)`: pick a random candidate, advance
the state, create the child keyed by the action's canonical key, and run a
rollout from the child.  The rollout backpropagates the score: the new child
ends with `results = [sc]`, `visits = 1`; `self` is bumped; the score is
returned so enclosing frames (the ancestors) bump too.  The `[]` case is
unreachable from the source call sites (they guarantee a non-empty
candidate list; Python would raise there). -/
def expand (t : TreeNode) (s : GState) (cands : List Action) (rng : List Nat) :
    TreeNode × Rat × List Nat :=
  match cands with
  | [] => (t, 0, rng)
  | c0 :: crest =>
      let a := (choose (c0 :: crest) c0 rng).1
      let sc := (rolloutScore (stepState s a) (choose (c0 :: crest) c0 rng).2).1
      (TreeNode.mk t.param t.action
         (dictInsert t.children a.key (TreeNode.mk t.param (some a) .nil [sc] 1))
         (t.results ++ [sc]) (t.visits + 1),
       sc, (rolloutScore (stepState s a) (choose (c0 :: crest) c0 rng).2).2)

/-- How a `step` frame absorbs the result of the recursive `child.step`:
the child subtree is written back at its key, and if the recursion
backpropagated a score (`some sc`), this node is touched by that
backpropagation as the next ancestor on the path. -/
def absorb (t : TreeNode) (k : Nat) (r : TreeNode × Option Rat × List Nat) :
    TreeNode × Option Rat × List Nat :=
  match r with
  | (c', none, rng2) =>
      (TreeNode.mk t.param t.action (dictInsert t.children k c') t.results t.visits,
       none, rng2)
  | (c', some sc, rng2) =>
      (bump (TreeNode.mk t.param t.action (dictInsert t.children k c') t.results t.visits) sc,
       some sc, rng2)

/-- The body of `TreeNode.step(state)`, fuel-indexed (the fuel bounds the
descent depth; `TreeNode.step` supplies `GState.size`, which always suffices
since every descent strictly shrinks the state).  Returns the updated node
together with the score backpropagated through it this iteration, if any. -/
def stepGo : Nat → TreeNode → GState → List Nat → TreeNode × Option Rat × List Nat
  | 0, t, _, rng => (t, none, rng)
  | fuel + 1, t, s, rng =>
      match s.get_actions with
      | [] => (t, none, rng)
      | a0 :: rest =>
          let unexplored := (a0 :: rest).filter (fun a => !(hasKey t.children a.key))
          if unexplored.isEmpty then
            let a := (choose (a0 :: rest) a0 rng).1
            match lookupChild t.children a.key with
            | none => (t, none, (choose (a0 :: rest) a0 rng).2)
            | some c =>
                absorb t a.key
                  (stepGo fuel c (stepState s a) (choose (a0 :: rest) a0 rng).2)
          else
            ((expand t s unexplored rng).1, some (expand t s unexplored rng).2.1,
             (expand t s unexplored rng).2.2)

/-- `TreeNode.step(state)`: one search iteration invoked at the root. -/
def TreeNode.step (t : TreeNode) (s : GState) (rng : List Nat) :
    TreeNode × Option Rat × List Nat :=
  stepGo s.size t s rng

/-- The loop in `MCTSAgent.choose_card`: one `step` per iteration, each on
its own randomized snapshot (`copy_undeterministic`), modelled as a supplied
list of (state, random stream) pairs.  Also records, per iteration, the
score that iteration backpropagated to the root (if any). -/
def runIters : TreeNode → List (GState × List Nat) → TreeNode × List (Option Rat)
  | t, [] => (t, [])
  | t, (s, rng) :: rest =>
      ((runIters (t.step s rng).1 rest).1,
       (t.step s rng).2.1 :: (runIters (t.step s rng).1 rest).2)

/-- Average outcome of a child as computed by `get_best`:
`sum(child.results) / child.visits`. -/
def childAvg (c : TreeNode) : Rat :=
  c.results.sum / (c.visits : Rat)

/-- The accumulator loop in `TreeNode.get_best`: `best = None`,
`best_avg = -inf`, then for each child with `visits > 0` compute
`avg = sum(results) / visits` and replace the best on strict improvement.
The initial `-inf` is modelled by the `none` accumulator, since every
rational average strictly exceeds `-inf` (so the first visited child always
becomes the best, exactly as in the source). -/
def bestLoop : List TreeNode → Option (TreeNode × Rat) → Option (TreeNode × Rat)
  | [], acc => acc
  | c :: rest, none =>
      if 0 < c.visits then bestLoop rest (some (c, childAvg c))
      else bestLoop rest none
  | c :: rest, some (b, bavg) =>
      if 0 < c.visits then
        (if bavg < childAvg c then bestLoop rest (some (c, childAvg c))
         else bestLoop rest (some (b, bavg)))
      else bestLoop rest (some (b, bavg))

/-- `TreeNode.get_best(state)`: with no children, a uniformly random legal
action (or `None` when there are none); otherwise the `incomingAction` of
the first child attaining the highest average outcome among children with
at least one visit, or `None` when no child has a visit. -/
def TreeNode.get_best (t : TreeNode) (s : GState) (rng : List Nat) : Option Action :=
  match t.children with
  | .nil =>
      match s.get_actions with
      | [] => none
      | a0 :: rest => some (choose (a0 :: rest) a0 rng).1
  | .cons _ _ _ =>
      match bestLoop (childValues t.children) none with
      | some (b, _) => b.action
      | none => none

/-- The UCB key from `TreeNode.select`:
`(sum(results)/len(results) if results else 0)
 + param * sqrt(log(len(parent.results) + 1) / (1 + len(results)))`,
read over the reals (the source computes it in floating point). -/
noncomputable def ucbVal (param : Rat) (parentRes : List Rat) (c : TreeNode) : ℝ :=
  (if c.results = [] then (0 : ℝ)
   else ((c.results.sum / (c.results.length : Rat) : Rat) : ℝ))
    + (param : ℝ) *
        Real.sqrt (Real.log ((parentRes.length : ℝ) + 1) / (1 + (c.results.length : ℝ)))

/-- Python `max(items, key=f)`: the first item attaining the maximal key
(`max` keeps the current maximum on ties); `none` on an empty collection,
where Python raises `ValueError`. -/
noncomputable def maxByKey (f : Nat × TreeNode → ℝ) :
    List (Nat × TreeNode) → Option (Nat × TreeNode)
  | [] => none
  | x :: rest => some (rest.foldl (fun best y => if f best < f y then y else best) x)

/-- How a `select` frame absorbs the result of the recursive
`child.select`: the child subtree is written back at its key and this node
is touched by the backpropagation coming up from the expansion point.
`none` (a raised error below, or exhausted fuel) propagates. -/
def selAbsorb (t : TreeNode) (k : Nat) :
    Option (TreeNode × Rat × List Nat) → Option (TreeNode × Rat × List Nat)
  | none => none
  | some (c', sc, rng') =>
      some (bump (TreeNode.mk t.param t.action (dictInsert t.children k c')
              t.results t.visits) sc,
            sc, rng')

/-- The body of `TreeNode.select(state)`, fuel-indexed (each recursive call
descends into a strict subtree, so `TreeNode.size` fuel always suffices).
`none` models a raised exception: `max` over an empty `children` dict
(`ValueError`), the dict indexing failing (`KeyError`, dead code since the
key comes from the dict), or exhausted fuel. -/
noncomputable def selectGo : Nat → TreeNode → GState → List Nat →
    Option (TreeNode × Rat × List Nat)
  | 0, _, _, _ => none
  | fuel + 1, t, s, rng =>
      let available := s.get_actions
      if t.children.length < available.length then
        some (expand t s available rng)
      else
        match maxByKey (fun item => ucbVal t.param t.results item.2)
            (childItems t.children) with
        | none => none
        | some best =>
            let s' := applyAction s best.1
            match lookupChild t.children best.1 with
            | none => none
            | some c => selAbsorb t best.1 (selectGo fuel c s' rng)

/-- `TreeNode.select(state)` invoked at the root. -/
noncomputable def TreeNode.select (t : TreeNode) (s : GState) (rng : List Nat) :
    Option (TreeNode × Rat × List Nat) :=
  selectGo t.size t s rng

/-- `MCTSAgent.choose_card`: short-circuit on exactly one legal action;
otherwise build a fresh tree, run one `step` per supplied snapshot, and read
`get_best` on the actual battle state.  If that returns no action, fall back
to `random.choice` over the externally enumerated options
(`get_choose_card_options`, modelled from the spec as an arbitrary supplied
list since its source is external); `random.choice` on an empty sequence
raises `IndexError`, modelled as `Except.error`.  The external translation
`to_action(battle_state)` is modelled as the identity on actions. -/
def choose_card (iterSamples : List (GState × List Nat)) (battle : GState)
    (options : List Action) (param : Rat) (rng : List Nat) : Except String Action :=
  match battle.get_actions with
  | [a] => Except.ok a
  | _ =>
      let t := (runIters (freshNode param) iterSamples).1
      match t.get_best battle rng with
      | some b => Except.ok b
      | none =>
          match options with
          | [] => Except.error "IndexError: random.choice on an empty sequence"
          | o0 :: os => Except.ok (choose (o0 :: os) o0 rng).1

/-- The visit/outcome consistency invariant: at every node of the tree,
`visits` equals `len(results)`. -/
inductive Consistent : TreeNode → Prop where
  | intro (p : Rat) (a : Option Action) (cs : ChildMap) (rs : List Rat) (v : Nat) :
      v = rs.length →
      (∀ c, c ∈ childValues cs → Consistent c) →
      Consistent (TreeNode.mk p a cs rs v)

/-- Append-only growth of a search tree: the outcome list is extended, the
visit count does not decrease, and every existing child entry survives at
its key with its own history preserved recursively. -/
inductive Grows : TreeNode → TreeNode → Prop where
  | intro (t t' : TreeNode) :
      (∃ l, t'.results = t.results ++ l) →
      t.visits ≤ t'.visits →
      (∀ k c, lookupChild t.children k = some c →
        (lookupChild t'.children k).isSome) →
      (∀ k c c', lookupChild t.children k = some c →
        lookupChild t'.children k = some c' → Grows c c') →
      Grows t t'

/-- The trees reachable from a fresh root during one decision's search, by
any sequence of the tree-mutating operations (`get_best` reads the tree
without changing it, so it needs no constructor). -/
inductive Reachable (p : Rat) : TreeNode → Prop where
  | root : Reachable p (freshNode p)
  | stepOp (fuel : Nat) (t : TreeNode) (s : GState) (rng : List Nat) :
      Reachable p t → Reachable p (stepGo fuel t s rng).1
  | expandOp (t : TreeNode) (s : GState) (cands : List Action) (rng : List Nat) :
      Reachable p t → Reachable p (expand t s cands rng).1
  | rolloutOp (t : TreeNode) (s : GState) (rng : List Nat) :
      Reachable p t → Reachable p (t.rollout s rng).1
  | backpropOp (t : TreeNode) (sc : Rat) :
      Reachable p t → Reachable p (t.backpropagate sc)
  | selectOp (fuel : Nat) (t t' : TreeNode) (s : GState) (sc : Rat) (rng rng' : List Nat) :
      Reachable p t → selectGo fuel t s rng = some (t', sc, rng') → Reachable p t'

@[simp] theorem TreeNode.param_mk (p a cs rs v) : (TreeNode.mk p a cs rs v).param = p := rfl

@[simp] theorem TreeNode.action_mk (p a cs rs v) : (TreeNode.mk p a cs rs v).action = a := rfl

@[simp] theorem TreeNode.children_mk (p a cs rs v) : (TreeNode.mk p a cs rs v).children = cs := rfl

@[simp] theorem TreeNode.results_mk (p a cs rs v) : (TreeNode.mk p a cs rs v).results = rs := rfl

@[simp] theorem TreeNode.visits_mk (p a cs rs v) : (TreeNode.mk p a cs rs v).visits = v := rfl

@[simp] theorem GState.endedB_mk (e sc br) : (GState.mk e sc br).endedB = e := rfl

@[simp] theorem GState.scoreB_mk (e sc br) : (GState.mk e sc br).scoreB = sc := rfl

@[simp] theorem GState.branches_mk (e sc br) : (GState.mk e sc br).branches = br := rfl

@[simp] theorem childValues_nil : childValues .nil = [] := rfl

@[simp] theorem childValues_cons (k c rest) :
    childValues (.cons k c rest) = c :: childValues rest := rfl

@[simp] theorem childItems_nil : childItems .nil = [] := rfl

@[simp] theorem childItems_cons (k c rest) :
    childItems (.cons k c rest) = (k, c) :: childItems rest := rfl

@[simp] theorem childKeys_nil : childKeys .nil = [] := rfl

@[simp] theorem childKeys_cons (k c rest) :
    childKeys (.cons k c rest) = k :: childKeys rest := rfl

@[simp] theorem lookupChild_nil (k) : lookupChild .nil k = none := rfl

theorem lookupChild_cons (k' c rest k) :
    lookupChild (.cons k' c rest) k =
      if k' = k then some c else lookupChild rest k := rfl

@[simp] theorem bump_param (t sc) : (bump t sc).param = t.param := by
  cases t
  rfl

@[simp] theorem bump_action (t sc) : (bump t sc).action = t.action := by
  cases t
  rfl

@[simp] theorem bump_children (t sc) : (bump t sc).children = t.children := by
  cases t
  rfl

@[simp] theorem bump_results (t sc) : (bump t sc).results = t.results ++ [sc] := by
  cases t
  rfl

@[simp] theorem bump_visits (t sc) : (bump t sc).visits = t.visits + 1 := by
  cases t
  rfl

/-- Structural induction over `ChildMap` alone (the mutual recursor ties it
to a `TreeNode` motive; this one is derived by strong induction on size). -/
theorem ChildMap.inductionOn (P : ChildMap → Prop) (hnil : P .nil)
    (hcons : ∀ k c rest, P rest → P (.cons k c rest)) : ∀ cs, P cs := by
  have key : ∀ n cs, ChildMap.size cs ≤ n → P cs := by
    intro n
    induction n with
    | zero =>
        intro cs h
        cases cs with
        | nil => exact hnil
        | cons k c rest => simp [ChildMap.size] at h
    | succ n ih =>
        intro cs h
        cases cs with
        | nil => exact hnil
        | cons k c rest =>
            refine hcons k c rest (ih rest ?_)
            simp [ChildMap.size] at h
            omega
  intro cs
  exact key cs.size cs le_rfl

/-- The random choice from a non-empty list is a member of the list. -/
theorem choose_mem {α : Type} (a0 : α) (rest : List α) (rng : List Nat) :
    (choose (a0 :: rest) a0 rng).1 ∈ a0 :: rest := by
  simp only [choose]
  exact List.get_mem _ _ _

theorem choose_fst {α : Type} (a0 : α) (rest : List α) (rng : List Nat) :
    (choose (a0 :: rest) a0 rng).1 =
      (a0 :: rest).get ⟨(rngNext rng).1 % (rest.length + 1),
        Nat.mod_lt _ (Nat.succ_pos _)⟩ := rfl

@[simp] theorem choose_snd {α : Type} (a0 : α) (rest : List α) (rng : List Nat) :
    (choose (a0 :: rest) a0 rng).2 = (rngNext rng).2 := rfl

/-- Looking a key up after a dict assignment. -/
theorem lookupChild_dictInsert (cs : ChildMap) (k k' : Nat) (v : TreeNode) :
    lookupChild (dictInsert cs k v) k' =
      if k = k' then some v else lookupChild cs k' := by
  induction cs using ChildMap.inductionOn with
  | hnil =>
      by_cases h : k = k' <;> simp [dictInsert, lookupChild_cons, h]
  | hcons k0 c0 rest ih =>
      by_cases h0 : k0 = k
      · subst h0
        by_cases h : k0 = k' <;> simp [dictInsert, lookupChild_cons, h]
      · by_cases h : k = k'
        · subst h
          simp [dictInsert, h0, lookupChild_cons, ih]
        · by_cases h1 : k0 = k' <;>
            simp [dictInsert, h0, lookupChild_cons, h1, ih, h, Ne.symm h]

/-- Assigning the value already stored at a key leaves the dict unchanged. -/
theorem dictInsert_self (cs : ChildMap) (k : Nat) (c : TreeNode)
    (h : lookupChild cs k = some c) : dictInsert cs k c = cs := by
  induction cs using ChildMap.inductionOn with
  | hnil => simp [lookupChild] at h
  | hcons k0 c0 rest ih =>
      rw [lookupChild_cons] at h
      by_cases h0 : k0 = k
      · subst h0
        simp at h
        simp [dictInsert, h]
      · simp [h0] at h
        simp [dictInsert, h0, ih h]

/-- Assigning to a key already present does not change the key list. -/
theorem childKeys_dictInsert_of_hasKey (cs : ChildMap) (k : Nat) (v : TreeNode)
    (h : hasKey cs k = true) : childKeys (dictInsert cs k v) = childKeys cs := by
  induction cs using ChildMap.inductionOn with
  | hnil => simp [hasKey, lookupChild] at h
  | hcons k0 c0 rest ih =>
      by_cases h0 : k0 = k
      · subst h0
        simp [dictInsert]
      · simp [hasKey, lookupChild_cons, h0] at h
        simp [dictInsert, h0, ih (by simpa [hasKey] using h)]

/-- A value found by key lookup is among the dict's values. -/
theorem mem_values_of_lookupChild (cs : ChildMap) (k : Nat) (c : TreeNode)
    (h : lookupChild cs k = some c) : c ∈ childValues cs := by
  induction cs using ChildMap.inductionOn with
  | hnil => simp [lookupChild] at h
  | hcons k0 c0 rest ih =>
      rw [lookupChild_cons] at h
      by_cases h0 : k0 = k
      · simp [h0] at h
        simp [h]
      · simp [h0] at h
        simp [ih h]

/-- The values after a dict assignment: the new value or an old one. -/
theorem mem_values_dictInsert (cs : ChildMap) (k : Nat) (v c : TreeNode)
    (h : c ∈ childValues (dictInsert cs k v)) : c = v ∨ c ∈ childValues cs := by
  induction cs using ChildMap.inductionOn with
  | hnil => simpa [dictInsert] using h
  | hcons k0 c0 rest ih =>
      by_cases h0 : k0 = k
      · subst h0
        simp [dictInsert] at h
        rcases h with h | h
        · exact Or.inl h
        · exact Or.inr (by simp [h])
      · simp [dictInsert, h0] at h
        rcases h with h | h
        · exact Or.inr (by simp [h])
        · rcases ih h with h1 | h1
          · exact Or.inl h1
          · exact Or.inr (by simp [h1])

/-- Every item of the dict has a successful lookup at its key. -/
theorem lookupChild_isSome_of_mem_items (cs : ChildMap) (it : Nat × TreeNode)
    (h : it ∈ childItems cs) : ∃ c, lookupChild cs it.1 = some c := by
  induction cs using ChildMap.inductionOn with
  | hnil => simp at h
  | hcons k0 c0 rest ih =>
      simp at h
      rcases h with h | h
      · subst h
        exact ⟨c0, by simp [lookupChild_cons]⟩
      · rcases ih h with ⟨c, hc⟩
        by_cases h0 : k0 = it.1
        · exact ⟨c0, by simp [lookupChild_cons, h0]⟩
        · exact ⟨c, by simp [lookupChild_cons, h0, hc]⟩

@[simp] theorem absorb_children (t : TreeNode) (k : Nat) (c' : TreeNode)
    (o : Option Rat) (rng : List Nat) :
    (absorb t k (c', o, rng)).1.children = dictInsert t.children k c' := by
  cases o <;> simp [absorb]

/-- Unvisited children are skipped: they never change the accumulator. -/
theorem bestLoop_skip (l : List TreeNode) :
    ∀ acc, (∀ c ∈ l, ¬ 0 < c.visits) → bestLoop l acc = acc := by
  induction l with
  | nil => intro acc _; rfl
  | cons c rest ih =>
      intro acc h
      have hc : ¬ 0 < c.visits := h c (by simp)
      have hrest : ∀ c' ∈ rest, ¬ 0 < c'.visits := fun c' hc' => h c' (by simp [hc'])
      cases acc with
      | none => simp only [bestLoop, if_neg hc]; exact ih _ hrest
      | some pr =>
          rcases pr with ⟨b, bavg⟩
          simp only [bestLoop, if_neg hc]
          exact ih _ hrest

/-- The running best average never decreases along the loop. -/
theorem bestLoop_acc_le (l : List TreeNode) :
    ∀ b bavg r rv, bestLoop l (some (b, bavg)) = some (r, rv) → bavg ≤ rv := by
  induction l with
  | nil =>
      intro b bavg r rv h
      simp [bestLoop] at h
      exact le_of_eq h.2
  | cons c rest ih =>
      intro b bavg r rv h
      simp only [bestLoop] at h
      by_cases hv : 0 < c.visits
      · rw [if_pos hv] at h
        by_cases hlt : bavg < childAvg c
        · rw [if_pos hlt] at h
          exact le_of_lt (lt_of_lt_of_le hlt (ih _ _ _ _ h))
        · rw [if_neg hlt] at h
          exact ih _ _ _ _ h
      · rw [if_neg hv] at h
        exact ih _ _ _ _ h

/-- If the loop returns no best child, it started with none and saw only
unvisited children. -/
theorem bestLoop_eq_none (l : List TreeNode) :
    ∀ acc, bestLoop l acc = none → acc = none ∧ ∀ c ∈ l, ¬ 0 < c.visits := by
  induction l with
  | nil => intro acc h; exact ⟨h, by simp⟩
  | cons c rest ih =>
      intro acc h
      have step : ∀ acc', bestLoop rest acc' = none → acc' = none ∧ ∀ c' ∈ rest, ¬ 0 < c'.visits := ih
      cases acc with
      | none =>
          simp only [bestLoop] at h
          by_cases hv : 0 < c.visits
          · rw [if_pos hv] at h
            rcases step _ h with ⟨hacc, _⟩
            exact absurd hacc (by simp)
          · rw [if_neg hv] at h
            rcases step _ h with ⟨_, hrest⟩
            refine ⟨rfl, ?_⟩
            intro c' hc'
            rcases List.mem_cons.mp hc' with h1 | h1
            · subst h1; exact hv
            · exact hrest c' h1
      | some pr =>
          rcases pr with ⟨b, bavg⟩
          simp only [bestLoop] at h
          by_cases hv : 0 < c.visits
          · rw [if_pos hv] at h
            by_cases hlt : bavg < childAvg c
            · rw [if_pos hlt] at h
              rcases step _ h with ⟨hacc, _⟩
              exact absurd hacc (by simp)
            · rw [if_neg hlt] at h
              rcases step _ h with ⟨hacc, _⟩
              exact absurd hacc (by simp)
          · rw [if_neg hv] at h
            rcases step _ h with ⟨hacc, _⟩
            exact absurd hacc (by simp)

/-- The returned best either is the initial accumulator or is a visited
child of the list carrying its own average. -/
theorem bestLoop_mem (l : List TreeNode) :
    ∀ acc r rv, bestLoop l acc = some (r, rv) →
      acc = some (r, rv) ∨ (r ∈ l ∧ 0 < r.visits ∧ rv = childAvg r) := by
  induction l with
  | nil =>
      intro acc r rv h
      exact Or.inl h
  | cons c rest ih =>
      intro acc r rv h
      have fromC : bestLoop rest (some (c, childAvg c)) = some (r, rv) →
          0 < c.visits → r ∈ c :: rest ∧ 0 < r.visits ∧ rv = childAvg r := by
        intro h' hv
        rcases ih _ _ _ h' with h1 | h1
        · rcases Prod.mk.inj (Option.some.inj h1) with ⟨h2a, h2b⟩
          subst h2a
          exact ⟨by simp, hv, h2b.symm⟩
        · exact ⟨by simp [h1.1], h1.2.1, h1.2.2⟩
      cases acc with
      | none =>
          simp only [bestLoop] at h
          by_cases hv : 0 < c.visits
          · rw [if_pos hv] at h
            exact Or.inr (fromC h hv)
          · rw [if_neg hv] at h
            rcases ih _ _ _ h with h1 | h1
            · exact Or.inl h1
            · exact Or.inr ⟨by simp [h1.1], h1.2.1, h1.2.2⟩
      | some pr =>
          rcases pr with ⟨b, bavg⟩
          simp only [bestLoop] at h
          by_cases hv : 0 < c.visits
          · rw [if_pos hv] at h
            by_cases hlt : bavg < childAvg c
            · rw [if_pos hlt] at h
              exact Or.inr (fromC h hv)
            · rw [if_neg hlt] at h
              rcases ih _ _ _ h with h1 | h1
              · exact Or.inl h1
              · exact Or.inr ⟨by simp [h1.1], h1.2.1, h1.2.2⟩
          · rw [if_neg hv] at h
            rcases ih _ _ _ h with h1 | h1
            · exact Or.inl h1
            · exact Or.inr ⟨by simp [h1.1], h1.2.1, h1.2.2⟩

/-- The returned best average dominates every visited child of the list. -/
theorem bestLoop_ge (l : List TreeNode) :
    ∀ acc r rv, bestLoop l acc = some (r, rv) →
      ∀ c ∈ l, 0 < c.visits → childAvg c ≤ rv := by
  induction l with
  | nil => intro acc r rv _ c hc; simp at hc
  | cons c0 rest ih =>
      intro acc r rv h c hc hcv
      rcases List.mem_cons.mp hc with hmem | hmem
      · subst hmem
        cases acc with
        | none =>
            simp only [bestLoop, if_pos hcv] at h
            exact bestLoop_acc_le rest _ _ _ _ h
        | some pr =>
            rcases pr with ⟨b, bavg⟩
            simp only [bestLoop, if_pos hcv] at h
            by_cases hlt : bavg < childAvg c
            · rw [if_pos hlt] at h
              exact bestLoop_acc_le rest _ _ _ _ h
            · rw [if_neg hlt] at h
              exact le_trans (not_lt.mp hlt) (bestLoop_acc_le rest _ _ _ _ h)
      · cases acc with
        | none =>
            simp only [bestLoop] at h
            by_cases hv : 0 < c0.visits
            · rw [if_pos hv] at h
              exact ih _ _ _ h c hmem hcv
            · rw [if_neg hv] at h
              exact ih _ _ _ h c hmem hcv
        | some pr =>
            rcases pr with ⟨b, bavg⟩
            simp only [bestLoop] at h
            by_cases hv : 0 < c0.visits
            · rw [if_pos hv] at h
              by_cases hlt : bavg < childAvg c0
              · rw [if_pos hlt] at h
                exact ih _ _ _ h c hmem hcv
              · rw [if_neg hlt] at h
                exact ih _ _ _ h c hmem hcv
            · rw [if_neg hv] at h
              exact ih _ _ _ h c hmem hcv

/-- A concrete action with key 0. -/
def actX : Action := Action.mk 0 0

/-- A concrete action with key 1. -/
def actY : Action := Action.mk 1 0

/-- A concrete terminal state with no legal actions. -/
def stateTerm : GState := GState.mk true 0 .nil

/-- A concrete two-child tree: child at key 0 has average 3, child at key 1
has average 7, both visited once. -/
def twoChildTree : TreeNode :=
  TreeNode.mk 1 none
    (.cons 0 (TreeNode.mk 1 (some actX) .nil [3] 1)
      (.cons 1 (TreeNode.mk 1 (some actY) .nil [7] 1) .nil))
    [3, 7] 2

/-- C1: `get_best` with no children returns a uniformly random legal action
(a member of `get_actions`, any member being attainable for a suitable
random stream) or `none` when there are none; with children it returns the
`incomingAction` of a visited child whose average outcome
(`sum(results)/visits`) dominates every visited child, and `none` when no
child has a visit (zero-visit children being ineligible regardless of their
statistics). -/
theorem get_best_characterisation (t : TreeNode) (s : GState) (rng : List Nat) :
    (t.children = .nil → s.get_actions = [] → t.get_best s rng = none)
    ∧ (t.children = .nil → s.get_actions ≠ [] →
        ∃ a ∈ s.get_actions, t.get_best s rng = some a)
    ∧ (t.children ≠ .nil → (∀ c ∈ childValues t.children, c.visits = 0) →
        t.get_best s rng = none)
    ∧ (t.children ≠ .nil → (∃ c ∈ childValues t.children, 0 < c.visits) →
        ∃ b ∈ childValues t.children, 0 < b.visits ∧
          (∀ c ∈ childValues t.children, 0 < c.visits → childAvg c ≤ childAvg b) ∧
          t.get_best s rng = b.action) := by
  cases t with
  | mk p a cs rs v =>
      cases cs with
      | nil =>
          refine ⟨fun _ hacts => ?_, fun _ hacts => ?_,
                  fun hne => absurd rfl hne, fun hne => absurd rfl hne⟩
          · simp only [TreeNode.get_best, TreeNode.children_mk, hacts]
          · rcases h : GState.get_actions s with _ | ⟨a0, rest⟩
            · exact absurd h hacts
            · refine ⟨(choose (a0 :: rest) a0 rng).1, ?_, ?_⟩
              · exact choose_mem a0 rest rng
              · simp only [TreeNode.get_best, TreeNode.children_mk, h]
      | cons k0 c0 crest =>
          have hnil : ¬ (ChildMap.cons k0 c0 crest = ChildMap.nil) :=
            fun h => ChildMap.noConfusion h
          refine ⟨fun h => absurd h hnil, fun h => absurd h hnil,
                  fun _ hall => ?_, fun _ hex => ?_⟩
          · have hskip : bestLoop (childValues (ChildMap.cons k0 c0 crest)) none = none := by
              refine bestLoop_skip _ none ?_
              intro c hc
              rw [hall c hc]
              simp
            simp only [TreeNode.get_best, TreeNode.children_mk, hskip]
          · rcases hbl : bestLoop (childValues (ChildMap.cons k0 c0 crest)) none with _ | ⟨b, bv⟩
            · rcases bestLoop_eq_none _ _ hbl with ⟨_, hnone⟩
              rcases hex with ⟨c, hc, hcv⟩
              exact absurd hcv (hnone c hc)
            · have hmem := bestLoop_mem _ _ _ _ hbl
              rcases hmem with h1 | ⟨h1, h2, h3⟩
              · exact absurd h1.symm (by simp)
              · refine ⟨b, h1, h2, ?_, ?_⟩
                · intro c hc hcv
                  rw [h3] at hbl
                  exact bestLoop_ge _ _ _ _ hbl c hc hcv
                · simp only [TreeNode.get_best, TreeNode.children_mk, hbl]

/-- Witness for C1: on the concrete two-child tree, `get_best` returns the
incoming action of the child with the larger average. -/
theorem get_best_characterisation_witness :
    ∃ b ∈ childValues twoChildTree.children, 0 < b.visits ∧
      (∀ c ∈ childValues twoChildTree.children, 0 < c.visits → childAvg c ≤ childAvg b) ∧
      twoChildTree.get_best stateTerm [] = b.action :=
  (get_best_characterisation twoChildTree stateTerm []).2.2.2
    (fun h => ChildMap.noConfusion h)
    ⟨TreeNode.mk 1 (some actX) .nil [3] 1, by simp [twoChildTree], by decide⟩

/-- C9: once the root has at least one child, `get_best` ignores both the
state argument and the random stream: the result is computed solely from
the stored children statistics. -/
theorem get_best_ignores_state (t : TreeNode) (s1 s2 : GState)
    (rng1 rng2 : List Nat) (h : t.children ≠ .nil) :
    t.get_best s1 rng1 = t.get_best s2 rng2 := by
  cases t with
  | mk p a cs rs v =>
      cases cs with
      | nil => exact absurd rfl h
      | cons k0 c0 crest => rfl

/-- Witness for C9: on the concrete two-child tree, two calls with entirely
different states and random streams agree. -/
theorem get_best_ignores_state_witness :
    twoChildTree.get_best (GState.mk false 5 (.cons actX stateTerm .nil)) [7, 1] =
      twoChildTree.get_best stateTerm [] :=
  get_best_ignores_state twoChildTree _ _ _ _ (fun h => ChildMap.noConfusion h)

/-- C10: `select` on a node with zero children and a state with zero legal
actions fails (Python raises `ValueError` from `max` over the empty
`children` dict, modelled as `none`); the non-expansion branch needs at
least one child to be safe. -/
theorem select_fails_no_children (t : TreeNode) (s : GState) (rng : List Nat)
    (hc : t.children = .nil) (ha : s.get_actions = []) :
    t.select s rng = none := by
  have key : ∀ fuel, selectGo fuel t s rng = none := by
    intro fuel
    cases fuel with
    | zero => rfl
    | succ n =>
        simp only [selectGo, ha, hc]
        simp [ChildMap.length, maxByKey]
  exact key t.size

/-- Witness for C10: the fresh root together with a terminal state makes
`select` fail. -/
theorem select_fails_no_children_witness :
    (freshNode 1).select stateTerm [] = none :=
  select_fails_no_children (freshNode 1) stateTerm [] rfl rfl

theorem TreeNode.eta (t : TreeNode) :
    TreeNode.mk t.param t.action t.children t.results t.visits = t := by
  cases t
  rfl

@[simp] theorem absorb_none (t : TreeNode) (k : Nat) (c' : TreeNode) (rng2 : List Nat) :
    absorb t k (c', none, rng2) =
      (TreeNode.mk t.param t.action (dictInsert t.children k c') t.results t.visits,
       none, rng2) := rfl

@[simp] theorem absorb_some (t : TreeNode) (k : Nat) (c' : TreeNode) (sc : Rat)
    (rng2 : List Nat) :
    absorb t k (c', some sc, rng2) =
      (bump (TreeNode.mk t.param t.action (dictInsert t.children k c') t.results t.visits) sc,
       some sc, rng2) := rfl

/-- One expansion adds exactly one visit to the expanding node. -/
theorem expand_visits (t : TreeNode) (s : GState) (c0 : Action) (crest : List Action)
    (rng : List Nat) :
    (expand t s (c0 :: crest) rng).1.visits = t.visits + 1 := by
  simp [expand]

/-- An iteration that backpropagates no score leaves the tree unchanged. -/
theorem stepGo_none_eq (fuel : Nat) :
    ∀ t s rng, (stepGo fuel t s rng).2.1 = none → (stepGo fuel t s rng).1 = t := by
  induction fuel with
  | zero => intro t s rng _; rfl
  | succ n ih =>
      intro t s rng h
      rcases hacts : s.get_actions with _ | ⟨a0, rest⟩
      · simp [stepGo, hacts]
      · by_cases he : ((a0 :: rest).filter (fun a => !(hasKey t.children a.key))).isEmpty
        · simp only [stepGo, hacts, if_pos he] at h ⊢
          rcases hl : lookupChild t.children ((choose (a0 :: rest) a0 rng).1).key
            with _ | c
          · simp [hl]
          · simp only [hl] at h ⊢
            rcases hrec : stepGo n c
                (stepState s ((choose (a0 :: rest) a0 rng).1))
                ((choose (a0 :: rest) a0 rng).2) with ⟨c', o, rng2⟩
            rcases o with _ | sc
            · have hc' : c' = c := by
                have := ih c (stepState s ((choose (a0 :: rest) a0 rng).1))
                  ((choose (a0 :: rest) a0 rng).2) (by rw [hrec])
                rw [hrec] at this
                exact this
              subst hc'
              simp [dictInsert_self _ _ _ hl, TreeNode.eta]
            · rw [hrec] at h
              simp at h
        · simp only [stepGo, hacts, if_neg he] at h
          simp at h

theorem absorb_visits (t : TreeNode) (k : Nat) (X : TreeNode × Option Rat × List Nat) :
    (absorb t k X).1.visits =
      t.visits + (if (absorb t k X).2.1.isSome then 1 else 0) := by
  rcases X with ⟨c', o, rng2⟩
  rcases o with _ | sc
  · simp
  · simp

/-- Each iteration adds one visit to the root exactly when it
backpropagates a score. -/
theorem stepGo_visits (fuel : Nat) (t : TreeNode) (s : GState) (rng : List Nat) :
    (stepGo fuel t s rng).1.visits =
      t.visits + (if (stepGo fuel t s rng).2.1.isSome then 1 else 0) := by
  cases fuel with
  | zero => simp [stepGo]
  | succ n =>
      rcases hacts : s.get_actions with _ | ⟨a0, rest⟩
      · simp [stepGo, hacts]
      · by_cases he : ((a0 :: rest).filter (fun a => !(hasKey t.children a.key))).isEmpty
        · simp only [stepGo, hacts, if_pos he]
          rcases hl : lookupChild t.children ((choose (a0 :: rest) a0 rng).1).key
            with _ | c
          · simp [hl]
          · simp only [hl]
            exact absorb_visits t _ _
        · simp only [stepGo, hacts, if_neg he]
          rcases hu : (a0 :: rest).filter (fun a => !(hasKey t.children a.key))
            with _ | ⟨u0, us⟩
          · rw [hu] at he
            simp at he
          · rw [hu]
            simp [expand]

/-- Over a run, the root's visit count grows by one per iteration that
backpropagated a score; with every iteration completing, by one each. -/
theorem runIters_visits (samples : List (GState × List Nat)) :
    ∀ t, (∀ o ∈ (runIters t samples).2, o.isSome) →
      (runIters t samples).1.visits = t.visits + samples.length := by
  induction samples with
  | nil => intro t _; simp [runIters]
  | cons pr rest ih =>
      rcases pr with ⟨s, rng⟩
      intro t hall
      simp only [runIters, TreeNode.step] at hall ⊢
      have hhead : ((stepGo s.size t s rng).2.1).isSome = true := hall _ (by simp)
      have htail : ∀ o ∈ (runIters (stepGo s.size t s rng).1 rest).2, o.isSome :=
        fun o ho => hall o (by simp [ho])
      rw [ih _ htail]
      have hstep := stepGo_visits s.size t s rng
      rw [hhead] at hstep
      simp only [if_true] at hstep
      rw [hstep]
      simp only [List.length_cons]
      omega

/-- C3: starting from a fresh root, if every one of the `N` iterations
completed (its rollout backpropagated a score to the root), the root's
visit count afterwards is exactly `N`. -/
theorem root_visits_eq_iterations (p : Rat) (samples : List (GState × List Nat))
    (h : ∀ o ∈ (runIters (freshNode p) samples).2, o.isSome) :
    (runIters (freshNode p) samples).1.visits = samples.length := by
  have hv := runIters_visits samples (freshNode p) h
  simpa [freshNode] using hv

/-- A concrete two-action state: `actX` advances to a terminal state of
score 4, `actY` to a terminal state of score 7. -/
def stateXY : GState :=
  GState.mk false 0 (.cons actX (GState.mk true 4 .nil)
    (.cons actY (GState.mk true 7 .nil) .nil))

/-- Witness for C3: two completed iterations on concrete states leave the
root with exactly two visits. -/
theorem root_visits_eq_iterations_witness :
    (∀ o ∈ (runIters (freshNode 1) [(stateXY, [0]), (stateXY, [0])]).2, o.isSome)
      ∧ (runIters (freshNode 1) [(stateXY, [0]), (stateXY, [0])]).1.visits = 2 :=
  ⟨by decide, root_visits_eq_iterations 1 [(stateXY, [0]), (stateXY, [0])] (by decide)⟩

/-- C7: at a node where every legal action's canonical key already has a
child, a further `step` creates no child there: it draws a random legal
action, advances the state by it, and descends into the existing child for
that action's key; the node's key list is unchanged. -/
theorem step_fully_explored (fuel : Nat) (t : TreeNode) (s : GState) (rng : List Nat)
    (a0 : Action) (rest : List Action)
    (hacts : s.get_actions = a0 :: rest)
    (hfull : ∀ a ∈ s.get_actions, hasKey t.children a.key = true) :
    ∃ c, lookupChild t.children ((choose (a0 :: rest) a0 rng).1).key = some c ∧
      stepGo (fuel + 1) t s rng =
        absorb t ((choose (a0 :: rest) a0 rng).1).key
          (stepGo fuel c (stepState s ((choose (a0 :: rest) a0 rng).1))
            ((choose (a0 :: rest) a0 rng).2)) ∧
      childKeys (stepGo (fuel + 1) t s rng).1.children = childKeys t.children := by
  have hmem : (choose (a0 :: rest) a0 rng).1 ∈ s.get_actions := by
    rw [hacts]
    exact choose_mem a0 rest rng
  have hkey : hasKey t.children ((choose (a0 :: rest) a0 rng).1).key = true :=
    hfull _ hmem
  rcases Option.isSome_iff_exists.mp (by simpa [hasKey] using hkey) with ⟨c, hc⟩
  have hfilter : (a0 :: rest).filter (fun a => !(hasKey t.children a.key)) = [] := by
    refine List.filter_eq_nil_iff.mpr ?_
    intro a ha
    have := hfull a (by rw [hacts]; exact ha)
    simp [this]
  have he : ((a0 :: rest).filter (fun a => !(hasKey t.children a.key))).isEmpty := by
    rw [hfilter]
    rfl
  refine ⟨c, hc, ?_, ?_⟩
  · simp only [stepGo, hacts, if_pos he, hc]
  · simp only [stepGo, hacts, if_pos he, hc]
    rcases hrec : stepGo fuel c
        (stepState s ((choose (a0 :: rest) a0 rng).1))
        ((choose (a0 :: rest) a0 rng).2) with ⟨c', o, rng2⟩
    have : (absorb t ((choose (a0 :: rest) a0 rng).1).key (c', o, rng2)).1.children =
        dictInsert t.children ((choose (a0 :: rest) a0 rng).1).key c' :=
      absorb_children _ _ _ _ _
    rw [this]
    exact childKeys_dictInsert_of_hasKey _ _ _ hkey

/-- Witness for C7: on the concrete fully-expanded two-child tree, a
further `step` keeps the key list `[0, 1]` and descends into an existing
child. -/
theorem step_fully_explored_witness :
    ∃ c, lookupChild twoChildTree.children
        ((choose [actX, actY] actX [1]).1).key = some c ∧
      stepGo 1 twoChildTree stateXY [1] =
        absorb twoChildTree ((choose [actX, actY] actX [1]).1).key
          (stepGo 0 c (stepState stateXY ((choose [actX, actY] actX [1]).1))
            ((choose [actX, actY] actX [1]).2)) ∧
      childKeys (stepGo 1 twoChildTree stateXY [1]).1.children =
        childKeys twoChildTree.children :=
  step_fully_explored 0 twoChildTree stateXY [1] actX [actY] rfl (by decide)

theorem consistent_bump (t : TreeNode) (sc : Rat) (h : Consistent t) :
    Consistent (bump t sc) := by
  cases h with
  | intro p a cs rs v hv hch =>
      exact Consistent.intro p a cs (rs ++ [sc]) (v + 1) (by simp [hv]) hch

theorem consistent_expand (t : TreeNode) (s : GState) (cands : List Action)
    (rng : List Nat) (h : Consistent t) : Consistent (expand t s cands rng).1 := by
  cases cands with
  | nil => exact h
  | cons c0 crest =>
      cases h with
      | intro p a cs rs v hv hch =>
          refine Consistent.intro _ _ _ _ _ (by simp [hv]) ?_
          intro c hc
          rcases mem_values_dictInsert _ _ _ _ hc with h1 | h1
          · subst h1
            exact Consistent.intro _ _ _ _ _ rfl (fun c hc => by simp at hc)
          · exact hch c h1

theorem consistent_stepGo (fuel : Nat) :
    ∀ t s rng, Consistent t → Consistent (stepGo fuel t s rng).1 := by
  induction fuel with
  | zero => intro t s rng h; exact h
  | succ n ih =>
      intro t s rng h
      rcases hacts : s.get_actions with _ | ⟨a0, rest⟩
      · simpa [stepGo, hacts] using h
      · by_cases he : ((a0 :: rest).filter (fun a => !(hasKey t.children a.key))).isEmpty
        · simp only [stepGo, hacts, if_pos he]
          split
          · exact h
          · next c hl =>
              have hc : Consistent c := by
                cases h with
                | intro p a cs rs v hv hch =>
                    exact hch c (mem_values_of_lookupChild _ _ _ hl)
              have hrec := ih c (stepState s ((choose (a0 :: rest) a0 rng).1))
                ((choose (a0 :: rest) a0 rng).2) hc
              rcases hstep : stepGo n c (stepState s ((choose (a0 :: rest) a0 rng).1))
                  ((choose (a0 :: rest) a0 rng).2) with ⟨c', o, rng2⟩
              rw [hstep] at hrec
              rcases o with _ | sc
              · cases h with
                | intro p a cs rs v hv hch =>
                    refine Consistent.intro _ _ _ _ _ hv ?_
                    intro cc hcc
                    rcases mem_values_dictInsert _ _ _ _ hcc with h1 | h1
                    · subst h1; exact hrec
                    · exact hch cc h1
              · cases h with
                | intro p a cs rs v hv hch =>
                    refine Consistent.intro _ _ _ _ _ (by simp [hv]) ?_
                    intro cc hcc
                    rcases mem_values_dictInsert _ _ _ _ hcc with h1 | h1
                    · subst h1; exact hrec
                    · exact hch cc h1
        · simp only [stepGo, hacts, if_neg he]
          exact consistent_expand t s _ rng h

theorem consistent_selectGo (fuel : Nat) :
    ∀ t s rng t' sc rng', Consistent t →
      selectGo fuel t s rng = some (t', sc, rng') → Consistent t' := by
  induction fuel with
  | zero =>
      intro t s rng t' sc rng' _ hsel
      simp [selectGo] at hsel
  | succ n ih =>
      intro t s rng t' sc rng' h hsel
      simp only [selectGo] at hsel
      by_cases hlt : ChildMap.length t.children < (s.get_actions).length
      · rw [if_pos hlt] at hsel
        have h1 : (expand t s s.get_actions rng).1 = t' :=
          congrArg Prod.fst (Option.some.inj hsel)
        rw [← h1]
        exact consistent_expand t s _ rng h
      · rw [if_neg hlt] at hsel
        split at hsel
        · exact absurd hsel (by simp)
        · next best hmax =>
            split at hsel
            · exact absurd hsel (by simp)
            · next c hlk =>
                rcases hrec : selectGo n c (applyAction s best.1) rng
                    with _ | ⟨c2, sc2, rng2⟩
                · rw [hrec] at hsel
                  simp [selAbsorb] at hsel
                · rw [hrec] at hsel
                  have hc : Consistent c := by
                    cases h with
                    | intro p a cs rs v hv hch =>
                        exact hch c (mem_values_of_lookupChild _ _ _ hlk)
                  have hc2 := ih c (applyAction s best.1) rng c2 sc2 rng2 hc hrec
                  have h1 : (bump (TreeNode.mk t.param t.action
                      (dictInsert t.children best.1 c2) t.results t.visits) sc2) = t' := by
                    have := Option.some.inj hsel
                    exact congrArg Prod.fst this
                  rw [← h1]
                  cases h with
                  | intro p a cs rs v hv hch =>
                      refine Consistent.intro _ _ _ _ _ (by simp [hv]) ?_
                      intro cc hcc
                      rcases mem_values_dictInsert _ _ _ _ hcc with h2 | h2
                      · subst h2; exact hc2
                      · exact hch cc h2

/-- C2: every node of every tree reachable from a fresh root by any
sequence of the search operations satisfies `visits = len(outcomes)`; the
length of the outcome list is, by construction of the embedding, exactly
the number of backpropagation touches the node received (each touch appends
exactly one outcome). -/
theorem reachable_consistent (p : Rat) (t : TreeNode) (h : Reachable p t) :
    Consistent t := by
  induction h with
  | root => exact Consistent.intro _ _ _ _ _ rfl (fun c hc => by simp at hc)
  | stepOp fuel t s rng _ ih => exact consistent_stepGo fuel t s rng ih
  | expandOp t s cands rng _ ih => exact consistent_expand t s cands rng ih
  | rolloutOp t s rng _ ih => exact consistent_bump t _ ih
  | backpropOp t sc _ ih => exact consistent_bump t sc ih
  | selectOp fuel t t' s sc rng rng' _ hsel ih =>
      exact consistent_selectGo fuel t s rng t' sc rng' ih hsel

/-- Witness for C2: the tree after one concrete iteration from a fresh
root is consistent. -/
theorem reachable_consistent_witness :
    Consistent (stepGo stateXY.size (freshNode 1) stateXY [0]).1 :=
  reachable_consistent 1 _
    (Reachable.stepOp stateXY.size (freshNode 1) stateXY [0] Reachable.root)

/-- A child value is strictly smaller than its map. -/
theorem size_lt_of_mem_values (cs : ChildMap) :
    ∀ c ∈ childValues cs, TreeNode.size c < ChildMap.size cs := by
  induction cs using ChildMap.inductionOn with
  | hnil => intro c hc; simp at hc
  | hcons k c0 rest ih =>
      intro c hc
      simp only [childValues_cons, List.mem_cons] at hc
      rcases hc with hc | hc
      · subst hc
        simp [ChildMap.size]
        omega
      · have := ih c hc
        simp [ChildMap.size]
        omega

/-- Strong induction on trees: to prove a property of every node, prove it
assuming it for all children. -/
theorem TreeNode.strongInd (P : TreeNode → Prop)
    (h : ∀ t : TreeNode, (∀ c, c ∈ childValues t.children → P c) → P t) :
    ∀ t, P t := by
  have key : ∀ n t, TreeNode.size t ≤ n → P t := by
    intro n
    induction n with
    | zero =>
        intro t ht
        cases t with
        | mk p a cs rs v => simp [TreeNode.size] at ht
    | succ n ih =>
        intro t ht
        refine h t ?_
        intro c hc
        have h1 : TreeNode.size c < TreeNode.size t := by
          cases t with
          | mk p a cs rs v =>
              have := size_lt_of_mem_values cs c hc
              simp only [TreeNode.size]
              omega
        exact ih c (by omega)
  intro t
  exact key (TreeNode.size t) t le_rfl

theorem grows_refl : ∀ t, Grows t t := by
  refine TreeNode.strongInd _ ?_
  intro t ih
  refine Grows.intro t t ⟨[], by simp⟩ le_rfl ?_ ?_
  · intro k c hk
    simp [hk]
  · intro k c c' hk hk'
    rw [hk] at hk'
    obtain rfl := Option.some.inj hk'
    exact ih c (mem_values_of_lookupChild _ _ _ hk)

theorem grows_bump (t : TreeNode) (sc : Rat) : Grows t (bump t sc) := by
  refine Grows.intro _ _ ⟨[sc], by simp⟩ (by simp) ?_ ?_
  · intro k c hk
    simp [hk]
  · intro k c c' hk hk'
    simp only [bump_children] at hk'
    rw [hk] at hk'
    obtain rfl := Option.some.inj hk'
    exact grows_refl c

/-- Growth by rewriting one existing child to a grown subtree and extending
the node's own statistics. -/
theorem grows_update (t : TreeNode) (k0 : Nat) (c c' : TreeNode)
    (hl : lookupChild t.children k0 = some c) (hg : Grows c c')
    (rs' : List Rat) (v' : Nat)
    (hrs : ∃ l, rs' = t.results ++ l) (hv : t.visits ≤ v') :
    Grows t (TreeNode.mk t.param t.action (dictInsert t.children k0 c') rs' v') := by
  refine Grows.intro _ _ (by simpa using hrs) (by simpa using hv) ?_ ?_
  · intro k cc hk
    simp only [TreeNode.children_mk]
    rw [lookupChild_dictInsert]
    by_cases hkk : k0 = k
    · rw [if_pos hkk]
      rfl
    · rw [if_neg hkk, hk]
      rfl
  · intro k cc cc' hk hk'
    simp only [TreeNode.children_mk] at hk'
    rw [lookupChild_dictInsert] at hk'
    by_cases hkk : k0 = k
    · subst hkk
      rw [hl] at hk
      obtain rfl := Option.some.inj hk
      rw [if_pos rfl] at hk'
      obtain rfl := Option.some.inj hk'
      exact hg
    · rw [if_neg hkk] at hk'
      rw [hk] at hk'
      obtain rfl := Option.some.inj hk'
      exact grows_refl cc

/-- Expansion with candidates whose keys are all absent (as `step` always
calls it) only adds: the new child sits at a fresh key. -/
theorem grows_expand (t : TreeNode) (s : GState) (cands : List Action) (rng : List Nat)
    (hfresh : ∀ a ∈ cands, lookupChild t.children a.key = none) :
    Grows t (expand t s cands rng).1 := by
  cases cands with
  | nil => exact grows_refl t
  | cons c0 crest =>
      have hnone := hfresh _ (choose_mem c0 crest rng)
      refine Grows.intro _ _
        ⟨[(rolloutScore (stepState s ((choose (c0 :: crest) c0 rng).1))
            ((choose (c0 :: crest) c0 rng).2)).1], by simp [expand]⟩
        (by simp [expand]) ?_ ?_
      · intro k c hk
        simp only [expand, TreeNode.children_mk]
        rw [lookupChild_dictInsert]
        have hne : ((choose (c0 :: crest) c0 rng).1).key ≠ k := by
          intro heq
          rw [heq, hk] at hnone
          exact Option.noConfusion hnone
        rw [if_neg hne, hk]
        rfl
      · intro k c c' hk hk'
        simp only [expand, TreeNode.children_mk] at hk'
        rw [lookupChild_dictInsert] at hk'
        have hne : ((choose (c0 :: crest) c0 rng).1).key ≠ k := by
          intro heq
          rw [heq, hk] at hnone
          exact Option.noConfusion hnone
        rw [if_neg hne, hk] at hk'
        obtain rfl := Option.some.inj hk'
        exact grows_refl c

/-- One `step` iteration only grows the tree. -/
theorem grows_stepGo (fuel : Nat) :
    ∀ t s rng, Grows t (stepGo fuel t s rng).1 := by
  induction fuel with
  | zero => intro t s rng; exact grows_refl t
  | succ n ih =>
      intro t s rng
      rcases hacts : s.get_actions with _ | ⟨a0, rest⟩
      · simp only [stepGo, hacts]
        exact grows_refl t
      · by_cases he : ((a0 :: rest).filter (fun a => !(hasKey t.children a.key))).isEmpty
        · simp only [stepGo, hacts, if_pos he]
          split
          · exact grows_refl t
          · next c hl =>
              rcases hstep : stepGo n c (stepState s ((choose (a0 :: rest) a0 rng).1))
                  ((choose (a0 :: rest) a0 rng).2) with ⟨c', o, rng2⟩
              have hg : Grows c c' := by
                have := ih c (stepState s ((choose (a0 :: rest) a0 rng).1))
                  ((choose (a0 :: rest) a0 rng).2)
                rw [hstep] at this
                exact this
              rcases o with _ | sc
              · exact grows_update t _ c c' hl hg _ _ ⟨[], by simp⟩ le_rfl
              · exact grows_update t _ c c' hl hg _ _ ⟨[sc], by simp⟩ (by simp)
        · simp only [stepGo, hacts, if_neg he]
          refine grows_expand t s _ rng ?_
          intro a ha
          have hfa := List.of_mem_filter ha
          simp only [Bool.not_eq_true', hasKey] at hfa
          exact Option.not_isSome_iff_eq_none.mp (by simp [hfa])

/-- C5 (amended): during one decision's search, `step`, `rollout`, and
`backpropagate` only add nodes and append statistics, and so does `expand`
whenever every candidate's key has no existing child (which is how `step`
always calls it).  As stated the claim is false: `select` expands with the
full legal-action set, and when the random choice lands on an
already-explored action the existing child is overwritten by a fresh node,
discarding its recorded outcomes (see the counterexample). -/
theorem search_append_only (t : TreeNode) :
    (∀ fuel s rng, Grows t (stepGo fuel t s rng).1)
    ∧ (∀ s rng, Grows t (t.rollout s rng).1)
    ∧ (∀ sc, Grows t (t.backpropagate sc))
    ∧ (∀ s cands rng, (∀ a ∈ cands, lookupChild t.children a.key = none) →
        Grows t (expand t s cands rng).1) :=
  ⟨fun fuel s rng => grows_stepGo fuel t s rng,
   fun _ _ => grows_bump t _,
   fun sc => grows_bump t sc,
   fun s cands rng hfresh => grows_expand t s cands rng hfresh⟩

/-- A concrete action with key 2, absent from `twoChildTree`. -/
def actZ : Action := Action.mk 2 0

/-- Witness for C5 (amended): a concrete expansion at a fresh key grows the
concrete two-child tree. -/
theorem search_append_only_witness :
    Grows twoChildTree (expand twoChildTree stateXY [actZ] [0]).1 :=
  (search_append_only twoChildTree).2.2.2 stateXY [actZ] [0]
    (by
      intro a ha
      simp only [List.mem_singleton] at ha
      subst ha
      rfl)

/-- The root of the C5 counterexample: one child at key 0 with recorded
outcome list `[5]`. -/
def c5root : TreeNode :=
  TreeNode.mk 1 none (.cons 0 (TreeNode.mk 1 (some actX) .nil [5] 1) .nil) [5] 1

/-- The tree produced by one `select` on `c5root` and `stateXY` with random
stream `[0]`: the child at key 0 has been replaced by a fresh node whose
outcome list is `[4]` — the old outcome `5` is gone. -/
def c5result : TreeNode :=
  TreeNode.mk 1 none (.cons 0 (TreeNode.mk 1 (some actX) .nil [4] 1) .nil) [5, 4] 2

/-- Counterexample to C5 as stated: `select` (one of the operations the
claim quantifies over) expands with the full legal-action set, the random
choice lands on the already-explored action `actX`, and the existing child
is replaced by a fresh node, discarding its recorded outcome `5`. -/
theorem select_overwrites_child :
    selectGo 1 c5root stateXY [0] = some (c5result, 4, []) ∧ ¬ Grows c5root c5result := by
  constructor
  · rfl
  · intro hg
    cases hg with
    | intro _ _ hres hvis hsome hrec =>
        have h1 : lookupChild c5root.children 0 =
            some (TreeNode.mk 1 (some actX) .nil [5] 1) := rfl
        have h2 : lookupChild c5result.children 0 =
            some (TreeNode.mk 1 (some actX) .nil [4] 1) := rfl
        have hg2 := hrec 0 _ _ h1 h2
        cases hg2 with
        | intro _ _ hres2 hvis2 hsome2 hrec2 =>
            rcases hres2 with ⟨l, hl⟩
            simp only [TreeNode.results_mk, List.cons_append, List.nil_append] at hl
            injection hl with hhead _
            exact absurd hhead (by norm_num)

/-- Counterexample to C6 as stated: on a battle state with no legal action
and an empty externally-enumerated option list, `get_best` returns no
action and the fallback `random.choice` raises `IndexError` (modelled as
`Except.error`), so the fallback path can raise. -/
theorem choose_card_fallback_raises :
    choose_card [] stateTerm [] 1 [0] =
      Except.error "IndexError: random.choice on an empty sequence" := rfl

/-- C6 (amended): whenever `get_best` returns no action and at least one
externally enumerated legal option exists, `choose_card` returns the
uniform-random fallback choice, which is one of those options, and does
not raise.  As stated the claim is false: with an empty option list the
fallback `random.choice` raises `IndexError` (see the counterexample). -/
theorem choose_card_fallback (samples : List (GState × List Nat)) (battle : GState)
    (param : Rat) (rng : List Nat) (o0 : Action) (os : List Action)
    (hlen : battle.get_actions.length ≠ 1)
    (hbest : (runIters (freshNode param) samples).1.get_best battle rng = none) :
    ∃ a ∈ o0 :: os, choose_card samples battle (o0 :: os) param rng = Except.ok a := by
  refine ⟨(choose (o0 :: os) o0 rng).1, choose_mem o0 os rng, ?_⟩
  rcases hacts : battle.get_actions with _ | ⟨a1, rest1⟩
  · simp only [choose_card, hacts, hbest]
  · rcases rest1 with _ | ⟨a2, rest2⟩
    · rw [hacts] at hlen
      simp at hlen
    · simp only [choose_card, hacts, hbest]

/-- Witness for C6 (amended): concrete empty search, no legal battle
actions, one option; the fallback returns it. -/
theorem choose_card_fallback_witness :
    ∃ a ∈ [actX], choose_card [] stateTerm [actX] 1 [0] = Except.ok a :=
  choose_card_fallback [] stateTerm 1 [0] actX [] (by decide) rfl

/-- The first maximal element of a fold with a real-valued key: it is the
initial accumulator or a list member, its key dominates the accumulator's
and every list member's. -/
theorem foldl_maxBy_spec (f : Nat × TreeNode → ℝ) (rest : List (Nat × TreeNode)) :
    ∀ acc,
      ((rest.foldl (fun best y => if f best < f y then y else best) acc) = acc ∨
        (rest.foldl (fun best y => if f best < f y then y else best) acc) ∈ rest)
      ∧ f acc ≤ f (rest.foldl (fun best y => if f best < f y then y else best) acc)
      ∧ ∀ y ∈ rest, f y ≤ f (rest.foldl (fun best y => if f best < f y then y else best) acc) := by
  induction rest with
  | nil =>
      intro acc
      refine ⟨Or.inl rfl, le_rfl, ?_⟩
      intro y hy
      simp at hy
  | cons y0 ys ih =>
      intro acc
      simp only [List.foldl_cons]
      rcases ih (if f acc < f y0 then y0 else acc) with ⟨hmem, hle, hall⟩
      have hacc' : f acc ≤ f (if f acc < f y0 then y0 else acc) := by
        by_cases h : f acc < f y0
        · rw [if_pos h]; exact le_of_lt h
        · rw [if_neg h]
      have hy0 : f y0 ≤ f (if f acc < f y0 then y0 else acc) := by
        by_cases h : f acc < f y0
        · rw [if_pos h]
        · rw [if_neg h]; exact le_of_not_lt h
      refine ⟨?_, le_trans hacc' hle, ?_⟩
      · by_cases h : f acc < f y0
        · rw [if_pos h]
          rw [if_pos h] at hmem
          rcases hmem with h1 | h1
          · exact Or.inr (by simp [h1])
          · exact Or.inr (by simp [h1])
        · rw [if_neg h]
          rw [if_neg h] at hmem
          rcases hmem with h1 | h1
          · exact Or.inl h1
          · exact Or.inr (by simp [h1])
      · intro y hy
        rcases List.mem_cons.mp hy with h1 | h1
        · subst h1
          exact le_trans hy0 hle
        · exact hall y h1

/-- Python's `max(items, key=f)` on a non-empty collection returns the
first item attaining the maximal key. -/
theorem maxByKey_spec (f : Nat × TreeNode → ℝ) (l : List (Nat × TreeNode))
    (hne : l ≠ []) :
    ∃ m, maxByKey f l = some m ∧ m ∈ l ∧ ∀ y ∈ l, f y ≤ f m := by
  cases l with
  | nil => exact absurd rfl hne
  | cons x0 rest =>
      rcases foldl_maxBy_spec f rest x0 with ⟨hmem, hle0, hall⟩
      refine ⟨rest.foldl (fun best y => if f best < f y then y else best) x0, rfl, ?_, ?_⟩
      · rcases hmem with h1 | h1
        · simp [h1]
        · simp [h1]
      · intro y hy
        rcases List.mem_cons.mp hy with h1 | h1
        · subst h1
          exact hle0
        · exact hall y h1

/-- C4: if the node has fewer children than the state has legal actions,
`select` expands with the full legal-action set; otherwise (given at least
one child) it takes the first child item maximising
`mean(child outcomes, 0 if none) + param * sqrt(ln(len(parent results) + 1)
/ (1 + len(child results)))`, advances the state by the selected dict key
(`apply_action` is modelled from the spec), and recurses `select` into that
child. -/
theorem select_spec (fuel : Nat) (t : TreeNode) (s : GState) (rng : List Nat) :
    (ChildMap.length t.children < s.get_actions.length →
      selectGo (fuel + 1) t s rng = some (expand t s s.get_actions rng))
    ∧ (¬ ChildMap.length t.children < s.get_actions.length → t.children ≠ .nil →
      ∃ best, maxByKey (fun item => ucbVal t.param t.results item.2)
          (childItems t.children) = some best ∧
        best ∈ childItems t.children ∧
        (∀ item ∈ childItems t.children,
          ucbVal t.param t.results item.2 ≤ ucbVal t.param t.results best.2) ∧
        ∃ c, lookupChild t.children best.1 = some c ∧
          selectGo (fuel + 1) t s rng =
            selAbsorb t best.1 (selectGo fuel c (applyAction s best.1) rng)) := by
  constructor
  · intro hlt
    simp only [selectGo, if_pos hlt]
  · intro hlt hne
    have hitems : childItems t.children ≠ [] := by
      cases hch : t.children with
      | nil => exact absurd hch hne
      | cons k0 c0 crest => simp [hch]
    rcases maxByKey_spec (fun item => ucbVal t.param t.results item.2)
        (childItems t.children) hitems with ⟨best, hmax, hmem, hall⟩
    rcases lookupChild_isSome_of_mem_items t.children best hmem with ⟨c, hc⟩
    refine ⟨best, hmax, hmem, hall, c, hc, ?_⟩
    simp only [selectGo, if_neg hlt, hmax, hc]

/-- Witness for C4: the two-child tree against the two-action state has as
many children as actions, so the UCB branch applies. -/
theorem select_spec_witness :
    ∃ best, maxByKey (fun item => ucbVal twoChildTree.param twoChildTree.results item.2)
        (childItems twoChildTree.children) = some best ∧
      best ∈ childItems twoChildTree.children ∧
      (∀ item ∈ childItems twoChildTree.children,
        ucbVal twoChildTree.param twoChildTree.results item.2 ≤
          ucbVal twoChildTree.param twoChildTree.results best.2) ∧
      ∃ c, lookupChild twoChildTree.children best.1 = some c ∧
        selectGo 1 twoChildTree stateXY [] =
          selAbsorb twoChildTree best.1
            (selectGo 0 c (applyAction stateXY best.1) []) :=
  (select_spec 0 twoChildTree stateXY []).2 (by decide)
    (fun h => ChildMap.noConfusion h)

theorem GState.size_succ (s : GState) : ∃ m, GState.size s = m + 1 := by
  cases s with
  | mk e sc br => exact ⟨Branches.size br, by simp [GState.size, Nat.add_comm]⟩

/-- The first iteration on a fresh root with two legal actions expands with
the full pair, creating one child keyed by the randomly chosen action. -/
theorem step_fresh_expands (p : Rat) (A B : Action) (s : GState) (rng : List Nat)
    (fuel : Nat) (hacts : s.get_actions = [A, B]) :
    (stepGo (fuel + 1) (freshNode p) s rng).1 =
      TreeNode.mk p none
        (.cons ((choose [A, B] A rng).1).key
          (TreeNode.mk p (some ((choose [A, B] A rng).1)) .nil
            [(rolloutScore (stepState s ((choose [A, B] A rng).1))
               ((choose [A, B] A rng).2)).1] 1) .nil)
        [(rolloutScore (stepState s ((choose [A, B] A rng).1))
           ((choose [A, B] A rng).2)).1] 1 := by
  simp only [stepGo, hacts]
  simp [freshNode, hasKey, lookupChild, expand, dictInsert]

/-- A further iteration at a root whose single child covers one of the two
legal actions expands with exactly the missing action, appending a second
child at its key. -/
theorem step_expands_missing (p : Rat) (A B : Action) (ch : TreeNode) (rs : List Rat)
    (v : Nat) (s : GState) (rng : List Nat) (fuel : Nat)
    (hacts : s.get_actions = [A, B] ∨ s.get_actions = [B, A])
    (hk : B.key ≠ A.key) :
    (stepGo (fuel + 1) (TreeNode.mk p none (.cons A.key ch .nil) rs v) s rng).1 =
      TreeNode.mk p none
        (.cons A.key ch (.cons B.key
          (TreeNode.mk p (some B) .nil
            [(rolloutScore (stepState s B) ((choose [B] B rng).2)).1] 1) .nil))
        (rs ++ [(rolloutScore (stepState s B) ((choose [B] B rng).2)).1]) (v + 1) := by
  rcases hacts with h | h
  · simp only [stepGo, h, TreeNode.children_mk]
    have hfil : [A, B].filter
        (fun a => !(hasKey (ChildMap.cons A.key ch .nil) a.key)) = [B] := by
      simp [hasKey, lookupChild, hk, Ne.symm hk]
    rw [hfil]
    simp [expand, dictInsert, choose, Nat.mod_one, hk, Ne.symm hk]
  · simp only [stepGo, h, TreeNode.children_mk]
    have hfil : [B, A].filter
        (fun a => !(hasKey (ChildMap.cons A.key ch .nil) a.key)) = [B] := by
      simp [hasKey, lookupChild, hk, Ne.symm hk]
    rw [hfil]
    simp [expand, dictInsert, choose, Nat.mod_one, hk, Ne.symm hk]

/-- C8: from a fresh root whose state offers exactly two legal actions with
distinct keys, two iterations (each rollout completing, as it always does
on finite game states) produce exactly two children, one keyed by each
action, each with one visit. -/
theorem two_iterations_two_children (p : Rat) (X Y : Action) (s1 s2 : GState)
    (r1 r2 : List Nat)
    (ha1 : s1.get_actions = [X, Y]) (ha2 : s2.get_actions = [X, Y])
    (hk : X.key ≠ Y.key) :
    ChildMap.length (runIters (freshNode p) [(s1, r1), (s2, r2)]).1.children = 2 ∧
    (∃ cX, lookupChild (runIters (freshNode p) [(s1, r1), (s2, r2)]).1.children X.key
        = some cX ∧ cX.visits = 1 ∧ cX.action = some X) ∧
    (∃ cY, lookupChild (runIters (freshNode p) [(s1, r1), (s2, r2)]).1.children Y.key
        = some cY ∧ cY.visits = 1 ∧ cY.action = some Y) := by
  have hrun : (runIters (freshNode p) [(s1, r1), (s2, r2)]).1 =
      (((freshNode p).step s1 r1).1.step s2 r2).1 := rfl
  rw [hrun]
  obtain ⟨m1, hm1⟩ := GState.size_succ s1
  obtain ⟨m2, hm2⟩ := GState.size_succ s2
  have hchoice : (choose [X, Y] X r1).1 = X ∨ (choose [X, Y] X r1).1 = Y := by
    rcases Nat.mod_two_eq_zero_or_one (rngNext r1).1 with h | h
    · exact Or.inl (by simp [choose, h])
    · exact Or.inr (by simp [choose, h])
  have hstep1 := step_fresh_expands p X Y s1 r1 m1 ha1
  rcases hchoice with hc | hc
  · rw [hc] at hstep1
    have hstep2 := step_expands_missing p X Y
      (TreeNode.mk p (some X) .nil
        [(rolloutScore (stepState s1 X) ((choose [X, Y] X r1).2)).1] 1)
      [(rolloutScore (stepState s1 X) ((choose [X, Y] X r1).2)).1] 1
      s2 r2 m2 (Or.inl ha2) (Ne.symm hk)
    simp only [TreeNode.step, hm1, hm2, hstep1, hstep2]
    refine ⟨by simp [ChildMap.length],
      ⟨TreeNode.mk p (some X) .nil
        [(rolloutScore (stepState s1 X) ((choose [X, Y] X r1).2)).1] 1, ?_, rfl, rfl⟩,
      ⟨TreeNode.mk p (some Y) .nil
        [(rolloutScore (stepState s2 Y) ((choose [Y] Y r2).2)).1] 1, ?_, rfl, rfl⟩⟩
    · simp [lookupChild]
    · simp [lookupChild, hk]
  · rw [hc] at hstep1
    have hstep2 := step_expands_missing p Y X
      (TreeNode.mk p (some Y) .nil
        [(rolloutScore (stepState s1 Y) ((choose [X, Y] X r1).2)).1] 1)
      [(rolloutScore (stepState s1 Y) ((choose [X, Y] X r1).2)).1] 1
      s2 r2 m2 (Or.inr ha2) hk
    simp only [TreeNode.step, hm1, hm2, hstep1, hstep2]
    refine ⟨by simp [ChildMap.length],
      ⟨TreeNode.mk p (some X) .nil
        [(rolloutScore (stepState s2 X) ((choose [X] X r2).2)).1] 1, ?_, rfl, rfl⟩,
      ⟨TreeNode.mk p (some Y) .nil
        [(rolloutScore (stepState s1 Y) ((choose [X, Y] X r1).2)).1] 1, ?_, rfl, rfl⟩⟩
    · simp [lookupChild, Ne.symm hk]
    · simp [lookupChild]

/-- Witness for C8: two concrete iterations on the concrete two-action
state produce two one-visit children keyed 0 and 1. -/
theorem two_iterations_two_children_witness :
    ChildMap.length (runIters (freshNode 1) [(stateXY, [0]), (stateXY, [1])]).1.children = 2 ∧
    (∃ cX, lookupChild (runIters (freshNode 1) [(stateXY, [0]), (stateXY, [1])]).1.children
        actX.key = some cX ∧ cX.visits = 1 ∧ cX.action = some actX) ∧
    (∃ cY, lookupChild (runIters (freshNode 1) [(stateXY, [0]), (stateXY, [1])]).1.children
        actY.key = some cY ∧ cY.visits = 1 ∧ cY.action = some actY) :=
  two_iterations_two_children 1 actX actY stateXY stateXY [0] [1] rfl rfl (by decide)

end MCTS
